import Mathlib

/-!
Shallow embedding of the route-optimization core of
`supabase/functions/optimize-route/index.ts`: the haversine distance model,
the nearest-neighbor construction, the 2-opt local search, the coordinate
fast path of `geocodeAddress`, the Google-Maps URL builder, and the
request handler.  JavaScript floating-point numbers are idealized as real
numbers, boolean arrays as functions `ℕ → Bool`, and the two `for` loops of
the 2-opt pass as structural recursion on the explicit iteration counts.
-/

namespace RouteOpt

open scoped List

/-- A geographic coordinate, the `{ lat, lng }` object of the source. -/
structure Coord where
  lat : ℝ
  lng : ℝ

/-- Real-number model of JavaScript `Math.atan2`, by the usual case split. -/
noncomputable def atan2 (y x : ℝ) : ℝ :=
  if 0 < x then Real.arctan (y / x)
  else if x < 0 then
    (if 0 ≤ y then Real.arctan (y / x) + Real.pi else Real.arctan (y / x) - Real.pi)
  else
    (if 0 < y then Real.pi / 2 else if y < 0 then -(Real.pi / 2) else 0)

lemma atan2_nonneg {y x : ℝ} (hy : 0 ≤ y) (hx : 0 ≤ x) : 0 ≤ atan2 y x := by
  unfold atan2
  rcases lt_or_eq_of_le hx with h | h
  · rw [if_pos h]
    have h0 : Real.arctan 0 ≤ Real.arctan (y / x) :=
      Real.arctan_strictMono.monotone (by positivity)
    simpa [Real.arctan_zero] using h0
  · subst h
    rcases lt_or_eq_of_le hy with hy' | hy'
    · simp only [lt_irrefl, if_neg, if_pos hy', not_false_iff]
      positivity
    · subst hy'
      simp

/-- The `haversine` function of the source (distance in kilometers). -/
noncomputable def haversine (a b : Coord) : ℝ :=
  let R : ℝ := 6371
  let dLat := (b.lat - a.lat) * Real.pi / 180
  let dLon := (b.lng - a.lng) * Real.pi / 180
  let lat1 := a.lat * Real.pi / 180
  let lat2 := b.lat * Real.pi / 180
  let sin1 := Real.sin (dLat / 2)
  let sin2 := Real.sin (dLon / 2)
  let c := sin1 * sin1 + Real.cos lat1 * Real.cos lat2 * sin2 * sin2
  let d := 2 * atan2 (Real.sqrt c) (Real.sqrt (1 - c))
  R * d

lemma sin_half_swap (u v : ℝ) :
    Real.sin ((u - v) * Real.pi / 180 / 2) = -Real.sin ((v - u) * Real.pi / 180 / 2) := by
  rw [show (u - v) * Real.pi / 180 / 2 = -((v - u) * Real.pi / 180 / 2) by ring, Real.sin_neg]

lemma haversine_nonneg (a b : Coord) : 0 ≤ haversine a b := by
  have h : ∀ c : ℝ, 0 ≤ (6371 : ℝ) * (2 * atan2 (Real.sqrt c) (Real.sqrt (1 - c))) := by
    intro c
    have h2 := atan2_nonneg (Real.sqrt_nonneg c) (Real.sqrt_nonneg (1 - c))
    positivity
  exact h _

lemma haversine_symm (a b : Coord) : haversine a b = haversine b a := by
  simp only [haversine]
  rw [sin_half_swap b.lat a.lat, sin_half_swap b.lng a.lng]
  have key : ∀ s s2 cA cB : ℝ, -s * -s + cA * cB * -s2 * -s2 = s * s + cB * cA * s2 * s2 := by
    intro s s2 cA cB; ring
  rw [key]

/-- Total length of a path through a list of stops: the sum of `d` over
consecutive entries.  This is the tour-length functional the 2-opt phase
optimizes. -/
noncomputable def segLen {α : Type} (d : α → α → ℝ) : List α → ℝ
  | [] => 0
  | [_] => 0
  | a :: b :: l => d a b + segLen d (b :: l)

theorem segLen_nonneg {α : Type} (d : α → α → ℝ) (hd : ∀ a b, 0 ≤ d a b) :
    ∀ l : List α, 0 ≤ segLen d l
  | [] => le_of_eq rfl
  | [_] => le_of_eq rfl
  | a :: b :: l => by
    have ih := segLen_nonneg d hd (b :: l)
    simp only [segLen]
    have := hd a b
    linarith

lemma segLen_append_cons {α : Type} (d : α → α → ℝ) (x : α) (B : List α) :
    ∀ A : List α, segLen d (A ++ x :: B) = segLen d (A ++ [x]) + segLen d (x :: B)
  | [] => by simp [segLen]
  | [a] => by simp [segLen]
  | a :: a' :: A => by
    have ih := segLen_append_cons d x B (a' :: A)
    show segLen d (a :: a' :: (A ++ x :: B)) = segLen d (a :: a' :: (A ++ [x])) + segLen d (x :: B)
    simp only [segLen]
    simp only [List.cons_append] at ih
    rw [ih]; ring

lemma segLen_reverse {α : Type} (d : α → α → ℝ) (hd : ∀ a b, d a b = d b a) :
    ∀ l : List α, segLen d l.reverse = segLen d l
  | [] => rfl
  | [_] => rfl
  | a :: b :: l => by
    have ih := segLen_reverse d hd (b :: l)
    have h1 : (a :: b :: l).reverse = l.reverse ++ b :: [a] := by simp
    rw [h1, segLen_append_cons d b [a] l.reverse]
    have h2 : l.reverse ++ [b] = (b :: l).reverse := by simp
    rw [h2, ih]
    simp only [segLen]
    rw [hd b a]
    ring

lemma segLen_cons_cons {α : Type} (d : α → α → ℝ) (a b : α) (l : List α) :
    segLen d (a :: b :: l) = d a b + segLen d (b :: l) := rfl

/-- Net length change of one 2-opt segment reversal, in decomposed form:
only the two boundary edges change; the interior edges of the reversed
segment keep their lengths because `d` is symmetric. -/
lemma segLen_twoOptMove {α : Type} (d : α → α → ℝ) (hd : ∀ a b, d a b = d b a)
    (A : List α) (p s : α) (M : List α) (y t : α) (B : List α) :
    segLen d (A ++ p :: y :: (M.reverse ++ s :: t :: B))
      = segLen d (A ++ p :: s :: (M ++ y :: t :: B))
        - ((d p s + d y t) - (d p y + d s t)) := by
  rw [segLen_append_cons d p (y :: (M.reverse ++ s :: t :: B)) A,
    segLen_append_cons d p (s :: (M ++ y :: t :: B)) A]
  have hold : segLen d (p :: s :: (M ++ y :: t :: B))
      = d p s + (segLen d (s :: (M ++ [y])) + (d y t + segLen d (t :: B))) := by
    rw [segLen_cons_cons]
    have h1 := segLen_append_cons d y (t :: B) (s :: M)
    simp only [List.cons_append] at h1
    rw [h1, segLen_cons_cons]
  have hnew : segLen d (p :: y :: (M.reverse ++ s :: t :: B))
      = d p y + (segLen d (y :: (M.reverse ++ [s])) + (d s t + segLen d (t :: B))) := by
    rw [segLen_cons_cons]
    have h2 := segLen_append_cons d s (t :: B) (y :: M.reverse)
    simp only [List.cons_append] at h2
    rw [h2, segLen_cons_cons]
  have hrev : segLen d (y :: (M.reverse ++ [s])) = segLen d (s :: (M ++ [y])) := by
    have h3 : y :: (M.reverse ++ [s]) = (s :: (M ++ [y])).reverse := by simp
    rw [h3, segLen_reverse d hd]
  rw [hold, hnew, hrev]
  ring

/-- The in-place segment reversal of the source:
`order.splice(i, k - i + 1, ...order.slice(i, k + 1).reverse())`. -/
def revSeg {α : Type} (o : List α) (i k : ℕ) : List α :=
  o.take i ++ ((o.drop i).take (k + 1 - i)).reverse ++ o.drop (k + 1)

lemma revSeg_perm {α : Type} (o : List α) (i k : ℕ) (h : i ≤ k + 1) :
    (revSeg o i k).Perm o := by
  have hd : o.drop (k + 1) = (o.drop i).drop (k + 1 - i) := by
    rw [List.drop_drop]
    congr 1
    omega
  calc revSeg o i k
      = o.take i ++ (((o.drop i).take (k + 1 - i)).reverse ++ (o.drop i).drop (k + 1 - i)) := by
        rw [revSeg, hd, List.append_assoc]
    _ ~ o.take i ++ ((o.drop i).take (k + 1 - i) ++ (o.drop i).drop (k + 1 - i)) :=
        List.Perm.append_left _ (List.Perm.append_right _ (List.reverse_perm _))
    _ = o.take i ++ o.drop i := by rw [List.take_append_drop]
    _ = o := List.take_append_drop i o

lemma revSeg_length {α : Type} (o : List α) (i k : ℕ) (h : i ≤ k + 1) :
    (revSeg o i k).length = o.length := (revSeg_perm o i k h).length_eq

lemma revSeg_head {α : Type} (o : List α) (i k : ℕ) (hi : 1 ≤ i) :
    (revSeg o i k).head? = o.head? := by
  cases o with
  | nil => simp [revSeg]
  | cons a l =>
    obtain ⟨j, rfl⟩ : ∃ j, i = j + 1 := ⟨i - 1, by omega⟩
    simp [revSeg]

/-- The `delta` computed by the source for the pair `(i, k)`:
`(distance(i-1, i) + distance(k, k+1)) - (distance(i-1, k) + distance(i, k+1))`,
where `distance(i1, i2) = d(order[i1], order[i2])` reads the current order. -/
noncomputable def deltaD (d : ℕ → ℕ → ℝ) (o : List ℕ) (i k : ℕ) : ℝ :=
  (d (o.getD (i - 1) 0) (o.getD i 0) + d (o.getD k 0) (o.getD (k + 1) 0))
    - (d (o.getD (i - 1) 0) (o.getD k 0) + d (o.getD i 0) (o.getD (k + 1) 0))

lemma revSeg_decomp (A : List ℕ) (p s : ℕ) (M : List ℕ) (y t : ℕ) (B : List ℕ) (i k : ℕ)
    (hA : A.length = i - 1) (hM : M.length = k - i - 1) (hi : 1 ≤ i) (hik : i < k) :
    revSeg (A ++ p :: s :: (M ++ y :: t :: B)) i k
      = A ++ p :: y :: (M.reverse ++ s :: t :: B) := by
  have h1 : (A ++ p :: s :: (M ++ y :: t :: B)).take i = A ++ [p] := by
    have e : A ++ p :: s :: (M ++ y :: t :: B) = (A ++ [p]) ++ s :: (M ++ y :: t :: B) := by
      simp
    rw [e]
    exact List.take_left' (by simp [hA]; omega)
  have h2 : (A ++ p :: s :: (M ++ y :: t :: B)).drop i = s :: (M ++ y :: t :: B) := by
    have e : A ++ p :: s :: (M ++ y :: t :: B) = (A ++ [p]) ++ s :: (M ++ y :: t :: B) := by
      simp
    rw [e]
    exact List.drop_left' (by simp [hA]; omega)
  have h3 : ((A ++ p :: s :: (M ++ y :: t :: B)).drop i).take (k + 1 - i)
      = s :: (M ++ [y]) := by
    rw [h2]
    have e : s :: (M ++ y :: t :: B) = (s :: (M ++ [y])) ++ t :: B := by simp
    rw [e]
    exact List.take_left' (by simp [hM]; omega)
  have h4 : (A ++ p :: s :: (M ++ y :: t :: B)).drop (k + 1) = t :: B := by
    have e : A ++ p :: s :: (M ++ y :: t :: B) = (A ++ p :: s :: (M ++ [y])) ++ t :: B := by
      simp
    rw [e]
    exact List.drop_left' (by simp [hA, hM]; omega)
  rw [revSeg, h1, h3, h4]
  simp

lemma getD_decomp (A : List ℕ) (p s : ℕ) (M : List ℕ) (y t : ℕ) (B : List ℕ) (i k : ℕ)
    (hA : A.length = i - 1) (hM : M.length = k - i - 1) (hi : 1 ≤ i) (hik : i < k) :
    (A ++ p :: s :: (M ++ y :: t :: B)).getD (i - 1) 0 = p ∧
    (A ++ p :: s :: (M ++ y :: t :: B)).getD i 0 = s ∧
    (A ++ p :: s :: (M ++ y :: t :: B)).getD k 0 = y ∧
    (A ++ p :: s :: (M ++ y :: t :: B)).getD (k + 1) 0 = t := by
  refine ⟨?_, ?_, ?_, ?_⟩
  · rw [List.getD_append_right A _ 0 (i - 1) (by omega)]
    have e : i - 1 - A.length = 0 := by omega
    rw [e]
    rfl
  · rw [List.getD_append_right A _ 0 i (by omega)]
    have e : i - A.length = 1 := by omega
    rw [e]
    rfl
  · rw [List.getD_append_right A _ 0 k (by omega)]
    have e : k - A.length = M.length + 2 := by omega
    rw [e, List.getD_cons_succ, List.getD_cons_succ,
      List.getD_append_right M _ 0 M.length (le_refl _)]
    simp
  · rw [List.getD_append_right A _ 0 (k + 1) (by omega)]
    have e : k + 1 - A.length = M.length + 3 := by omega
    rw [e, List.getD_cons_succ, List.getD_cons_succ,
      List.getD_append_right M _ 0 (M.length + 1) (by omega)]
    have e2 : M.length + 1 - M.length = 1 := by omega
    rw [e2]
    rfl

lemma exists_decomp (o : List ℕ) (i k : ℕ) (hi : 1 ≤ i) (hik : i < k)
    (hk : k + 1 < o.length) :
    ∃ (A : List ℕ) (p s : ℕ) (M : List ℕ) (y t : ℕ) (B : List ℕ),
      o = A ++ p :: s :: (M ++ y :: t :: B) ∧ A.length = i - 1 ∧ M.length = k - i - 1 := by
  have hlen : 4 ≤ (o.drop (i - 1)).length := by
    rw [List.length_drop]
    omega
  obtain ⟨p, l1, hl1⟩ : ∃ p l1, o.drop (i - 1) = p :: l1 := by
    cases h : o.drop (i - 1) with
    | nil => rw [h] at hlen; simp at hlen
    | cons a l => exact ⟨a, l, rfl⟩
  obtain ⟨s, l2, hl2⟩ : ∃ s l2, l1 = s :: l2 := by
    cases h : l1 with
    | nil => rw [h] at hl1; rw [hl1] at hlen; simp at hlen
    | cons a l => exact ⟨a, l, rfl⟩
  subst hl2
  have hlen1 : o.length - (i - 1) = l2.length + 2 := by
    have h := congrArg List.length hl1
    rw [List.length_drop] at h
    simp at h
    omega
  obtain ⟨y, l3, hl3⟩ : ∃ y l3, l2.drop (k - i - 1) = y :: l3 := by
    cases h : l2.drop (k - i - 1) with
    | nil =>
      have h2 := congrArg List.length h
      rw [List.length_drop] at h2
      simp at h2
      omega
    | cons a l => exact ⟨a, l, rfl⟩
  obtain ⟨t, B, hl4⟩ : ∃ t B, l3 = t :: B := by
    cases h : l3 with
    | nil =>
      have h2 := congrArg List.length hl3
      rw [List.length_drop, h] at h2
      simp at h2
      omega
    | cons a l => exact ⟨a, l, rfl⟩
  subst hl4
  refine ⟨o.take (i - 1), p, s, l2.take (k - i - 1), y, t, B, ?_, ?_, ?_⟩
  · conv_lhs => rw [← List.take_append_drop (i - 1) o]
    rw [hl1]
    congr 2
    rw [← hl3, List.take_append_drop]
  · rw [List.length_take]
    omega
  · rw [List.length_take]
    omega

/-- One reversal step changes the tour length by exactly the computed delta. -/
lemma revSeg_segLen (d : ℕ → ℕ → ℝ) (hd : ∀ a b, d a b = d b a) (o : List ℕ) (i k : ℕ)
    (hi : 1 ≤ i) (hik : i < k) (hk : k + 1 < o.length) :
    segLen d (revSeg o i k) = segLen d o - deltaD d o i k := by
  obtain ⟨A, p, s, M, y, t, B, ho, hA, hM⟩ := exists_decomp o i k hi hik hk
  obtain ⟨e1, e2, e3, e4⟩ := getD_decomp A p s M y t B i k hA hM hi hik
  rw [ho, revSeg_decomp A p s M y t B i k hA hM hi hik]
  simp only [deltaD]
  rw [e1, e2, e3, e4]
  exact segLen_twoOptMove d hd A p s M y t B

lemma eps_pos : (0 : ℝ) < 1e-6 := by norm_num

/-- Inner loop `for (let k = i + 1; k < n - 1; k++)` of `twoOpt`.  The first
argument counts the remaining iterations (`(n - 1) - k` at entry), so the
recursion is structural; `k` is the current loop index. -/
noncomputable def innerGo (d : ℕ → ℕ → ℝ) (i : ℕ) :
    ℕ → ℕ → List ℕ → Bool → List ℕ × Bool
  | 0, _, o, imp => (o, imp)
  | cnt + 1, k, o, imp =>
    if deltaD d o i k > 1e-6 then innerGo d i cnt (k + 1) (revSeg o i k) true
    else innerGo d i cnt (k + 1) o imp

/-- Outer loop `for (let i = 1; i < n - 2; i++)` of `twoOpt`, counted the
same way (`(n - 2) - i` remaining iterations). -/
noncomputable def outerGo (d : ℕ → ℕ → ℝ) (n : ℕ) :
    ℕ → ℕ → List ℕ → Bool → List ℕ × Bool
  | 0, _, o, imp => (o, imp)
  | cnt + 1, i, o, imp =>
    let r := innerGo d i (n - 1 - (i + 1)) (i + 1) o imp
    outerGo d n cnt (i + 1) r.1 r.2

/-- One full pass of the `while (improved)` body: both nested loops, with the
`improved` flag reset to `false` at the start. -/
noncomputable def onePass (d : ℕ → ℕ → ℝ) (n : ℕ) (o : List ℕ) : List ℕ × Bool :=
  outerGo d n (n - 2 - 1) 1 o false

/-- The `while (improved)` loop, with an explicit bound on the number of
passes; `twoOpt` instantiates the bound with one that provably suffices. -/
noncomputable def twoOptLoop (d : ℕ → ℕ → ℝ) (n : ℕ) : ℕ → List ℕ → List ℕ
  | 0, o => o
  | f + 1, o =>
    let r := onePass d n o
    if r.2 then twoOptLoop d n f r.1 else r.1

/-- Distance between stops `a` and `b` by index:
`haversine(points[a], points[b])`. -/
noncomputable def stopDist (points : List Coord) (a b : ℕ) : ℝ :=
  haversine (points.getD a ⟨0, 0⟩) (points.getD b ⟨0, 0⟩)

lemma stopDist_symm (points : List Coord) (a b : ℕ) :
    stopDist points a b = stopDist points b a := haversine_symm _ _

lemma stopDist_nonneg (points : List Coord) (a b : ℕ) :
    0 ≤ stopDist points a b := haversine_nonneg _ _

/-- Total length of a tour through `points` in visiting order `o`. -/
noncomputable def tourLen (points : List Coord) (o : List ℕ) : ℝ :=
  segLen (stopDist points) o

/-- A pass count that provably suffices for the 2-opt loop to converge:
every improving pass shortens the tour by more than `1e-6`. -/
noncomputable def twoOptFuel (points : List Coord) (o : List ℕ) : ℕ :=
  Nat.ceil (tourLen points o / 1e-6) + 1

/-- The `twoOpt` function of the source.  `n <= 3` returns the order
unchanged; otherwise the `while (improved)` loop runs, here supplied with a
pass bound that the termination theorem shows is never exhausted. -/
noncomputable def twoOpt (points : List Coord) (order : List ℕ) : List ℕ :=
  if order.length ≤ 3 then order
  else twoOptLoop (stopDist points) order.length (twoOptFuel points order) order

lemma innerGo_spec (d : ℕ → ℕ → ℝ) (hd : ∀ a b, d a b = d b a) (i : ℕ) (hi : 1 ≤ i)
    (n : ℕ) :
    ∀ (cnt k : ℕ) (o : List ℕ) (imp : Bool), o.length = n → i < k → k + cnt ≤ n - 1 →
      (innerGo d i cnt k o imp).1.length = n ∧
      (innerGo d i cnt k o imp).1.Perm o ∧
      (innerGo d i cnt k o imp).1.head? = o.head? ∧
      segLen d (innerGo d i cnt k o imp).1 ≤ segLen d o ∧
      ((innerGo d i cnt k o imp).2 = false → (innerGo d i cnt k o imp).1 = o ∧ imp = false) ∧
      (imp = false → (innerGo d i cnt k o imp).2 = true →
        segLen d (innerGo d i cnt k o imp).1 + 1e-6 < segLen d o) := by
  intro cnt
  induction cnt with
  | zero =>
    intro k o imp ho hik hcnt
    exact ⟨ho, List.Perm.refl o, rfl, le_refl _, fun h => ⟨rfl, h⟩,
      fun h1 h2 => absurd h2 (by rw [h1]; exact Bool.false_ne_true)⟩
  | succ cnt ih =>
    intro k o imp ho hik hcnt
    simp only [innerGo]
    by_cases h : deltaD d o i k > 1e-6
    · rw [if_pos h]
      have hk1 : k + 1 < o.length := by omega
      have hperm := revSeg_perm o i k (by omega)
      have hlen : (revSeg o i k).length = n := by rw [revSeg_length o i k (by omega), ho]
      have hseg := revSeg_segLen d hd o i k hi hik hk1
      have hhead := revSeg_head o i k hi
      obtain ⟨L, P, H, S, F, _⟩ := ih (k + 1) (revSeg o i k) true hlen (by omega) (by omega)
      have heps := eps_pos
      refine ⟨L, P.trans hperm, H.trans hhead, by rw [hseg] at S; linarith, ?_, ?_⟩
      · intro hf
        exact absurd (F hf).2 (by simp)
      · intro _ _
        rw [hseg] at S
        linarith
    · rw [if_neg h]
      exact ih (k + 1) o imp ho (by omega) (by omega)

lemma outerGo_spec (d : ℕ → ℕ → ℝ) (hd : ∀ a b, d a b = d b a) (n : ℕ) :
    ∀ (cnt i : ℕ) (o : List ℕ) (imp : Bool), o.length = n → 1 ≤ i → i + cnt ≤ n - 2 →
      (outerGo d n cnt i o imp).1.length = n ∧
      (outerGo d n cnt i o imp).1.Perm o ∧
      (outerGo d n cnt i o imp).1.head? = o.head? ∧
      segLen d (outerGo d n cnt i o imp).1 ≤ segLen d o ∧
      ((outerGo d n cnt i o imp).2 = false → (outerGo d n cnt i o imp).1 = o ∧ imp = false) ∧
      (imp = false → (outerGo d n cnt i o imp).2 = true →
        segLen d (outerGo d n cnt i o imp).1 + 1e-6 < segLen d o) := by
  intro cnt
  induction cnt with
  | zero =>
    intro i o imp ho hi hcnt
    exact ⟨ho, List.Perm.refl o, rfl, le_refl _, fun h => ⟨rfl, h⟩,
      fun h1 h2 => absurd h2 (by rw [h1]; exact Bool.false_ne_true)⟩
  | succ cnt ih =>
    intro i o imp ho hi hcnt
    have e : outerGo d n (cnt + 1) i o imp
        = outerGo d n cnt (i + 1) (innerGo d i (n - 1 - (i + 1)) (i + 1) o imp).1
            (innerGo d i (n - 1 - (i + 1)) (i + 1) o imp).2 := rfl
    rw [e]
    obtain ⟨L1, P1, H1, S1, F1, D1⟩ :=
      innerGo_spec d hd i hi n (n - 1 - (i + 1)) (i + 1) o imp ho (by omega) (by omega)
    obtain ⟨L2, P2, H2, S2, F2, D2⟩ :=
      ih (i + 1) (innerGo d i (n - 1 - (i + 1)) (i + 1) o imp).1
        (innerGo d i (n - 1 - (i + 1)) (i + 1) o imp).2 L1 (by omega) (by omega)
    refine ⟨L2, P2.trans P1, H2.trans H1, le_trans S2 S1, ?_, ?_⟩
    · intro hf
      obtain ⟨e2, f2⟩ := F2 hf
      obtain ⟨e1, f1⟩ := F1 f2
      exact ⟨by rw [e2, e1], f1⟩
    · intro h0 hT
      rcases Bool.eq_false_or_eq_true (innerGo d i (n - 1 - (i + 1)) (i + 1) o imp).2
        with hb | hb
      · have := D1 h0 hb
        linarith [S2]
      · obtain ⟨e1, _⟩ := F1 hb
        rw [e1] at D2 hT ⊢
        exact D2 hb hT

lemma onePass_spec (d : ℕ → ℕ → ℝ) (hd : ∀ a b, d a b = d b a) (n : ℕ) (o : List ℕ)
    (ho : o.length = n) :
    (onePass d n o).1.length = n ∧
    (onePass d n o).1.Perm o ∧
    (onePass d n o).1.head? = o.head? ∧
    segLen d (onePass d n o).1 ≤ segLen d o ∧
    ((onePass d n o).2 = false → (onePass d n o).1 = o) ∧
    ((onePass d n o).2 = true → segLen d (onePass d n o).1 + 1e-6 < segLen d o) := by
  by_cases hn : n ≤ 3
  · have h0 : n - 2 - 1 = 0 := by omega
    have e : onePass d n o = (o, false) := by
      show outerGo d n (n - 2 - 1) 1 o false = (o, false)
      rw [h0]
      rfl
    rw [e]
    exact ⟨ho, List.Perm.refl o, rfl, le_refl _, fun _ => rfl,
      fun h => absurd h Bool.false_ne_true⟩
  · obtain ⟨L, P, H, S, F, D⟩ :=
      outerGo_spec d hd n (n - 2 - 1) 1 o false ho (le_refl 1) (by omega)
    exact ⟨L, P, H, S, fun h => (F h).1, fun h => D rfl h⟩

lemma twoOptLoop_spec (d : ℕ → ℕ → ℝ) (hd : ∀ a b, d a b = d b a) (n : ℕ) :
    ∀ (f : ℕ) (o : List ℕ), o.length = n →
      (twoOptLoop d n f o).length = n ∧
      (twoOptLoop d n f o).Perm o ∧
      (twoOptLoop d n f o).head? = o.head? ∧
      segLen d (twoOptLoop d n f o) ≤ segLen d o := by
  intro f
  induction f with
  | zero =>
    intro o ho
    exact ⟨ho, List.Perm.refl o, rfl, le_refl _⟩
  | succ f ih =>
    intro o ho
    obtain ⟨L1, P1, H1, S1, _, _⟩ := onePass_spec d hd n o ho
    cases hb : (onePass d n o).2 with
    | false =>
      have e : twoOptLoop d n (f + 1) o = (onePass d n o).1 := by
        simp [twoOptLoop, hb]
      rw [e]
      exact ⟨L1, P1, H1, S1⟩
    | true =>
      have e : twoOptLoop d n (f + 1) o = twoOptLoop d n f (onePass d n o).1 := by
        simp [twoOptLoop, hb]
      obtain ⟨L2, P2, H2, S2⟩ := ih (onePass d n o).1 L1
      rw [e]
      exact ⟨L2, P2.trans P1, H2.trans H1, le_trans S2 S1⟩

/-- Reaching a fixpoint: with enough fuel, the final pass of the 2-opt loop
makes no improving move, and extra fuel does not change the result. -/
lemma twoOptLoop_fix (d : ℕ → ℕ → ℝ) (hd : ∀ a b, d a b = d b a)
    (hd0 : ∀ a b, 0 ≤ d a b) (n : ℕ) :
    ∀ (f : ℕ) (o : List ℕ), o.length = n → segLen d o < 1e-6 * (f : ℝ) →
      (onePass d n (twoOptLoop d n f o)).2 = false ∧
      ∀ g, twoOptLoop d n (f + g) o = twoOptLoop d n f o := by
  intro f
  induction f with
  | zero =>
    intro o ho hlt
    exfalso
    have := segLen_nonneg d hd0 o
    simp only [Nat.cast_zero, mul_zero] at hlt
    linarith
  | succ f ih =>
    intro o ho hlt
    have OS := onePass_spec d hd n o ho
    cases hb : (onePass d n o).2 with
    | false =>
      have e0 := OS.2.2.2.2.1 hb
      have e1 : twoOptLoop d n (f + 1) o = (onePass d n o).1 := by
        simp [twoOptLoop, hb]
      refine ⟨by rw [e1, e0]; exact hb, ?_⟩
      intro g
      have h3 : f + 1 + g = (f + g) + 1 := by omega
      have e2 : twoOptLoop d n (f + 1 + g) o = (onePass d n o).1 := by
        rw [h3]
        simp [twoOptLoop, hb]
      rw [e2, e1]
    | true =>
      have hdec := OS.2.2.2.2.2 hb
      have hL := OS.1
      have e1 : twoOptLoop d n (f + 1) o = twoOptLoop d n f (onePass d n o).1 := by
        simp [twoOptLoop, hb]
      have hlt2 : segLen d (onePass d n o).1 < 1e-6 * (f : ℝ) := by
        push_cast at hlt ⊢
        linarith
      obtain ⟨hfix, hstab⟩ := ih (onePass d n o).1 hL hlt2
      refine ⟨by rw [e1]; exact hfix, ?_⟩
      intro g
      have h3 : f + 1 + g = (f + g) + 1 := by omega
      have e2 : twoOptLoop d n (f + 1 + g) o = twoOptLoop d n (f + g) (onePass d n o).1 := by
        rw [h3]
        simp [twoOptLoop, hb]
      rw [e2, e1, hstab g]

/-- Inner scan `for (let j = 0; j < n; j++) { if (!visited[j]) ... }` of the
nearest-neighbor loop.  The `best = -1` / `bestDist = Infinity` sentinel pair
of the source is modelled as an `Option`: `none` plays the role of the
sentinel, and every real distance compares below `Infinity`, so the first
unvisited index always replaces `none`. -/
noncomputable def scanStep (f : ℕ → ℝ) (j : ℕ) :
    Option (ℕ × ℝ) → Option (ℕ × ℝ)
  | none => some (j, f j)
  | some (b, bd) => if f j < bd then some (j, f j) else some (b, bd)

noncomputable def scanBest (f : ℕ → ℝ) (vis : ℕ → Bool) :
    List ℕ → Option (ℕ × ℝ) → Option (ℕ × ℝ)
  | [], acc => acc
  | j :: js, acc =>
    scanBest f vis js (if vis j then acc else scanStep f j acc)

/-- Body of `nearestNeighborOrder`.  The first numeric argument counts the
remaining iterations of `for (let i = 1; i < n; i++)`; the boolean `visited`
array is a function, and `order[order.length - 1]` is the current endpoint. -/
noncomputable def nnGo (points : List Coord) (n : ℕ) :
    ℕ → (ℕ → Bool) → List ℕ → List ℕ
  | 0, _, order => order
  | cnt + 1, vis, order =>
    let last := order.getD (order.length - 1) 0
    match scanBest (fun j => stopDist points last j) vis (List.range n) none with
    | some (b, _) => nnGo points n cnt (fun j => if j = b then true else vis j) (order ++ [b])
    | none => nnGo points n cnt vis order

/-- The `nearestNeighborOrder` function of the source: `order` starts as
`[0]` with index `0` visited, then `n - 1` greedy extension steps run. -/
noncomputable def nearestNeighborOrder (points : List Coord) : List ℕ :=
  nnGo points points.length (points.length - 1) (fun j => j == 0) [0]

lemma scanBest_some (f : ℕ → ℝ) (vis : ℕ → Bool) :
    ∀ (l : List ℕ) (acc : Option (ℕ × ℝ)) (b : ℕ) (bd : ℝ),
      scanBest f vis l acc = some (b, bd) →
      acc = some (b, bd) ∨ (b ∈ l ∧ vis b = false) := by
  intro l
  induction l with
  | nil => intro acc b bd h; exact Or.inl h
  | cons j js ih =>
    intro acc b bd h
    simp only [scanBest] at h
    rcases ih _ b bd h with hacc | hmem
    · by_cases hv : vis j = true
      · rw [if_pos hv] at hacc
        exact Or.inl hacc
      · rw [if_neg hv] at hacc
        cases acc with
        | none =>
          simp only [scanStep, Option.some.injEq, Prod.mk.injEq] at hacc
          exact Or.inr ⟨by rw [← hacc.1]; exact List.mem_cons_self j js,
            by rw [← hacc.1]; simpa using hv⟩
        | some p =>
          obtain ⟨b0, bd0⟩ := p
          simp only [scanStep] at hacc
          by_cases hlt : f j < bd0
          · rw [if_pos hlt] at hacc
            simp only [Option.some.injEq, Prod.mk.injEq] at hacc
            exact Or.inr ⟨by rw [← hacc.1]; exact List.mem_cons_self j js,
              by rw [← hacc.1]; simpa using hv⟩
          · rw [if_neg hlt] at hacc
            exact Or.inl hacc
    · exact Or.inr ⟨List.mem_cons_of_mem j hmem.1, hmem.2⟩

lemma scanBest_none (f : ℕ → ℝ) (vis : ℕ → Bool) :
    ∀ (l : List ℕ) (acc : Option (ℕ × ℝ)), scanBest f vis l acc = none →
      acc = none ∧ ∀ j ∈ l, vis j = true := by
  intro l
  induction l with
  | nil => intro acc h; exact ⟨h, by simp⟩
  | cons j js ih =>
    intro acc h
    simp only [scanBest] at h
    obtain ⟨hstep, hall⟩ := ih _ h
    by_cases hv : vis j = true
    · rw [if_pos hv] at hstep
      refine ⟨hstep, ?_⟩
      intro x hx
      rcases List.mem_cons.mp hx with rfl | hx
      · exact hv
      · exact hall x hx
    · rw [if_neg hv] at hstep
      exfalso
      cases acc with
      | none => exact absurd hstep (by simp [scanStep])
      | some p =>
        obtain ⟨b0, bd0⟩ := p
        simp only [scanStep] at hstep
        by_cases hlt : f j < bd0
        · rw [if_pos hlt] at hstep
          exact absurd hstep (by simp)
        · rw [if_neg hlt] at hstep
          exact absurd hstep (by simp)

lemma nnGo_perm (points : List Coord) (n : ℕ) :
    ∀ (cnt : ℕ) (vis : ℕ → Bool) (order : List ℕ),
      (∀ j, vis j = true ↔ j ∈ order) →
      order.Nodup →
      (∀ j ∈ order, j < n) →
      order.length + cnt = n →
      (nnGo points n cnt vis order).Perm (List.range n) := by
  intro cnt
  induction cnt with
  | zero =>
    intro vis order hvis hnd hlt hlen
    have hsub : order ⊆ List.range n := fun j hj => List.mem_range.mpr (hlt j hj)
    exact (List.subperm_of_subset hnd hsub).perm_of_length_le
      (by simp only [List.length_range]; omega)
  | succ cnt ih =>
    intro vis order hvis hnd hlt hlen
    cases hscan : scanBest
        (fun j => stopDist points (order.getD (order.length - 1) 0) j) vis
        (List.range n) none with
    | none =>
      exfalso
      obtain ⟨-, hall⟩ := scanBest_none _ _ (List.range n) none hscan
      have hsub : List.range n ⊆ order := fun j hj => (hvis j).mp (hall j hj)
      have hle := (List.subperm_of_subset (List.nodup_range n) hsub).length_le
      simp only [List.length_range] at hle
      omega
    | some p =>
      obtain ⟨b, bd⟩ := p
      have hfound : b ∈ List.range n ∧ vis b = false := by
        rcases scanBest_some _ _ (List.range n) none b bd hscan with h | h
        · exact absurd h (by simp)
        · exact h
      obtain ⟨hbmem, hbvis⟩ := hfound
      have hbn : b < n := List.mem_range.mp hbmem
      have hbord : b ∉ order := by
        intro hmem
        have hb2 := (hvis b).mpr hmem
        rw [hb2] at hbvis
        simp at hbvis
      have e : nnGo points n (cnt + 1) vis order
          = nnGo points n cnt (fun j => if j = b then true else vis j) (order ++ [b]) := by
        simp only [nnGo, hscan]
      rw [e]
      apply ih
      · intro j
        by_cases hj : j = b
        · subst hj
          simp
        · rw [if_neg hj]
          rw [hvis j]
          simp [hj]
      · refine List.Nodup.append hnd (List.nodup_singleton b) ?_
        intro x hx hxb
        rw [List.mem_singleton.mp hxb] at hx
        exact hbord hx
      · intro j hj
        rcases List.mem_append.mp hj with hj | hj
        · exact hlt j hj
        · rw [List.mem_singleton.mp hj]
          exact hbn
      · simp only [List.length_append, List.length_singleton]
        omega

lemma tourLen_lt_fuel (points : List Coord) (o : List ℕ) :
    tourLen points o < 1e-6 * ((twoOptFuel points o : ℕ) : ℝ) := by
  have h0 := eps_pos
  have h1 : tourLen points o / 1e-6 ≤ (Nat.ceil (tourLen points o / 1e-6) : ℝ) :=
    Nat.le_ceil _
  have h2 : ((twoOptFuel points o : ℕ) : ℝ)
      = (Nat.ceil (tourLen points o / 1e-6) : ℝ) + 1 := by
    simp [twoOptFuel]
  rw [h2]
  rw [div_le_iff₀ h0] at h1
  nlinarith

lemma nnGo_head (points : List Coord) (n : ℕ) :
    ∀ (cnt : ℕ) (vis : ℕ → Bool) (a : ℕ) (order : List ℕ),
      (nnGo points n cnt vis (a :: order)).head? = some a := by
  intro cnt
  induction cnt with
  | zero => intro vis a order; rfl
  | succ cnt ih =>
    intro vis a order
    cases hscan : scanBest
        (fun j => stopDist points ((a :: order).getD ((a :: order).length - 1) 0) j) vis
        (List.range n) none with
    | none =>
      have e : nnGo points n (cnt + 1) vis (a :: order) = nnGo points n cnt vis (a :: order) := by
        simp only [nnGo, hscan]
      rw [e]
      exact ih vis a order
    | some p =>
      obtain ⟨b, bd⟩ := p
      have e : nnGo points n (cnt + 1) vis (a :: order)
          = nnGo points n cnt (fun j => if j = b then true else vis j) (a :: (order ++ [b])) := by
        simp only [nnGo, hscan, List.cons_append]
      rw [e]
      exact ih _ a _

lemma nearestNeighborOrder_head (points : List Coord) :
    (nearestNeighborOrder points).head? = some 0 :=
  nnGo_head points points.length (points.length - 1) (fun j => j == 0) 0 []

lemma twoOpt_perm (points : List Coord) (o : List ℕ) : (twoOpt points o).Perm o := by
  by_cases h : o.length ≤ 3
  · simp only [twoOpt, if_pos h]
    exact List.Perm.refl o
  · simp only [twoOpt, if_neg h]
    exact (twoOptLoop_spec (stopDist points) (stopDist_symm points) o.length
      (twoOptFuel points o) o rfl).2.1

lemma twoOpt_head (points : List Coord) (o : List ℕ) :
    (twoOpt points o).head? = o.head? := by
  by_cases h : o.length ≤ 3
  · simp only [twoOpt, if_pos h]
  · simp only [twoOpt, if_neg h]
    exact (twoOptLoop_spec (stopDist points) (stopDist_symm points) o.length
      (twoOptFuel points o) o rfl).2.2.1

lemma twoOpt_tourLen (points : List Coord) (o : List ℕ) :
    tourLen points (twoOpt points o) ≤ tourLen points o := by
  by_cases h : o.length ≤ 3
  · simp only [twoOpt, if_pos h]
    exact le_refl _
  · simp only [twoOpt, if_neg h]
    exact (twoOptLoop_spec (stopDist points) (stopDist_symm points) o.length
      (twoOptFuel points o) o rfl).2.2.2

lemma optimizer_perm (points : List Coord) (h : points ≠ []) :
    (twoOpt points (nearestNeighborOrder points)).Perm (List.range points.length) := by
  have h1 : 0 < points.length := List.length_pos.mpr h
  have hnn : (nearestNeighborOrder points).Perm (List.range points.length) := by
    apply nnGo_perm points points.length (points.length - 1) _ [0]
    · intro j
      simp
    · simp
    · intro j hj
      rw [List.mem_singleton.mp hj]
      omega
    · simp only [List.length_singleton]
      omega
  exact (twoOpt_perm points _).trans hnn

/-- C1: for every non-empty coordinate list of size `n`, the composed
optimizer (`nearestNeighborOrder` followed by `twoOpt`) returns a tour that
is a permutation of `{0, ..., n-1}`: every index appears exactly once. -/
theorem claim_C1_optimizer_permutation (points : List Coord) (h : points ≠ []) :
    (twoOpt points (nearestNeighborOrder points)).Perm (List.range points.length) :=
  optimizer_perm points h

theorem claim_C1_witness :
    ([(⟨0, 0⟩ : Coord)] ≠ []) ∧
      (twoOpt [(⟨0, 0⟩ : Coord)] (nearestNeighborOrder [⟨0, 0⟩])).Perm (List.range 1) :=
  ⟨by simp, claim_C1_optimizer_permutation [⟨0, 0⟩] (by simp)⟩

/-- C2: for every coordinate list of size `n ≥ 1`, the nearest-neighbor tour
begins with index `0`, `twoOpt` never changes the element at position `0`
(for any input tour), and so the final optimized tour starts with `0`. -/
theorem claim_C2_fixed_start (points : List Coord) (h : 1 ≤ points.length) :
    (nearestNeighborOrder points).head? = some 0 ∧
    (∀ order : List ℕ, (twoOpt points order).head? = order.head?) ∧
    (twoOpt points (nearestNeighborOrder points)).head? = some 0 := by
  refine ⟨nearestNeighborOrder_head points, fun order => twoOpt_head points order, ?_⟩
  rw [twoOpt_head points _, nearestNeighborOrder_head points]

theorem claim_C2_witness :
    (1 ≤ ([(⟨0, 0⟩ : Coord)]).length) ∧
      ((nearestNeighborOrder [(⟨0, 0⟩ : Coord)]).head? = some 0 ∧
        (∀ order : List ℕ, (twoOpt [(⟨0, 0⟩ : Coord)] order).head? = order.head?) ∧
        (twoOpt [(⟨0, 0⟩ : Coord)] (nearestNeighborOrder [⟨0, 0⟩])).head? = some 0) :=
  ⟨by simp, claim_C2_fixed_start [⟨0, 0⟩] (by simp)⟩

/-- C3: for every coordinate list and every input tour, the total tour
length after `twoOpt` is at most the total length of the input tour; in
particular Phase B applied after Phase A never increases the
nearest-neighbor tour length. -/
theorem claim_C3_twoOpt_nonincreasing (points : List Coord) (order : List ℕ) :
    tourLen points (twoOpt points order) ≤ tourLen points order ∧
    tourLen points (twoOpt points (nearestNeighborOrder points))
      ≤ tourLen points (nearestNeighborOrder points) :=
  ⟨twoOpt_tourLen points order, twoOpt_tourLen points (nearestNeighborOrder points)⟩

/-- C4: the `while (improved)` loop of `twoOpt` terminates: reversals fire
only for `delta > 1e-6`, each reversal shortens the tour by exactly `delta`,
the length is bounded below, so some pass bound `N` exists past which extra
passes change nothing and the final pass reports no improvement. -/
theorem claim_C4_twoOpt_terminates (points : List Coord) (order : List ℕ) :
    ∃ N : ℕ,
      (∀ g : ℕ, twoOptLoop (stopDist points) order.length (N + g) order
          = twoOptLoop (stopDist points) order.length N order) ∧
      (onePass (stopDist points) order.length
          (twoOptLoop (stopDist points) order.length N order)).2 = false ∧
      twoOpt points order = if order.length ≤ 3 then order
        else twoOptLoop (stopDist points) order.length N order := by
  obtain ⟨hfix, hstab⟩ := twoOptLoop_fix (stopDist points) (stopDist_symm points)
    (stopDist_nonneg points) order.length (twoOptFuel points order) order rfl
    (tourLen_lt_fuel points order)
  exact ⟨twoOptFuel points order, hstab, hfix, rfl⟩

/-- C8: for all coordinates `A` and `B`, `haversine A B = haversine B A`
exactly; the formula is symmetric in its two arguments. -/
theorem claim_C8_haversine_symm (a b : Coord) : haversine a b = haversine b a :=
  haversine_symm a b

/-- C9 (counterexample to the claim as stated): on zero stops the optimizer
does not return the empty tour; `order` is initialized to `[0]`
unconditionally, so the composed optimizer returns `[0]`. -/
theorem claim_C9_counterexample :
    nearestNeighborOrder ([] : List Coord) = [0] ∧
    twoOpt ([] : List Coord) (nearestNeighborOrder []) = [0] ∧
    ([0] : List ℕ) ≠ [] := by
  refine ⟨rfl, ?_, by simp⟩
  rfl

/-- C9 (amended): with at most one stop (so in particular with exactly one
stop, and also with zero stops) the optimizer does not fail and returns the
one-element tour `[0]` - not the empty tour in the zero-stop case. -/
theorem claim_C9_trivial_tours (points : List Coord) (h : points.length ≤ 1) :
    twoOpt points (nearestNeighborOrder points) = [0] := by
  have e : nearestNeighborOrder points = [0] := by
    have h0 : points.length - 1 = 0 := by omega
    show nnGo points points.length (points.length - 1) (fun j => j == 0) [0] = [0]
    rw [h0]
    rfl
  rw [e]
  simp [twoOpt]

theorem claim_C9_witness :
    (([(⟨0, 0⟩ : Coord)]).length ≤ 1) ∧
      twoOpt [(⟨0, 0⟩ : Coord)] (nearestNeighborOrder [⟨0, 0⟩]) = [0] :=
  ⟨by simp, claim_C9_trivial_tours [⟨0, 0⟩] (by simp)⟩

/-- Reference greedy step following the wording of the spec, Phase A: among
the not-yet-visited indices, the one with minimum distance (per the distance
model) to the last-visited index, ties broken by the lower original index -
the first minimum encountered in a left-to-right scan.  `List.argmin` over
the ascending candidate list is exactly this selection rule. -/
noncomputable def specGo (points : List Coord) (n : ℕ) : ℕ → List ℕ → List ℕ
  | 0, acc => acc
  | cnt + 1, acc =>
    let last := acc.getD (acc.length - 1) 0
    match ((List.range n).filter (fun j => decide (j ∉ acc))).argmin
        (fun j => stopDist points last j) with
    | some b => specGo points n cnt (acc ++ [b])
    | none => specGo points n cnt acc

/-- Reference greedy tour per the spec: start at index `0` and extend
`n - 1` times by the argmin rule of `specGo`. -/
noncomputable def specNearestNeighborOrder (points : List Coord) : List ℕ :=
  specGo points points.length (points.length - 1) [0]

lemma scanBest_argAux (f : ℕ → ℝ) (vis : ℕ → Bool) :
    ∀ (l : List ℕ) (accN : Option ℕ),
      scanBest f vis l (accN.map (fun b => (b, f b)))
        = ((l.filter (fun j => !(vis j))).foldl
            (List.argAux fun b c => f b < f c) accN).map (fun b => (b, f b)) := by
  intro l
  induction l with
  | nil => intro accN; rfl
  | cons j js ih =>
    intro accN
    by_cases hv : vis j = true
    · have e1 : scanBest f vis (j :: js) (accN.map (fun b => (b, f b)))
          = scanBest f vis js (accN.map (fun b => (b, f b))) := by
        simp only [scanBest, if_pos hv]
      have e2 : (j :: js).filter (fun j => !(vis j)) = js.filter (fun j => !(vis j)) := by
        simp [List.filter_cons, hv]
      rw [e1, e2]
      exact ih accN
    · have hstep : scanStep f j (accN.map (fun b => (b, f b)))
          = (List.argAux (fun b c => f b < f c) accN j).map (fun b => (b, f b)) := by
        cases accN with
        | none => rfl
        | some b0 =>
          simp only [Option.map_some, scanStep, List.argAux]
          rw [apply_ite (Option.map (fun b => (b, f b)))]
          rfl
      have e1 : scanBest f vis (j :: js) (accN.map (fun b => (b, f b)))
          = scanBest f vis js ((List.argAux (fun b c => f b < f c) accN j).map
              (fun b => (b, f b))) := by
        simp only [scanBest, if_neg hv, hstep]
      have e2 : (j :: js).filter (fun j => !(vis j)) = j :: js.filter (fun j => !(vis j)) := by
        simp [List.filter_cons, hv]
      rw [e1, e2, ih (List.argAux (fun b c => f b < f c) accN j)]
      rfl

lemma scanBest_eq_argmin (f : ℕ → ℝ) (vis : ℕ → Bool) (n : ℕ) :
    scanBest f vis (List.range n) none
      = (((List.range n).filter (fun j => !(vis j))).argmin f).map (fun b => (b, f b)) := by
  have h := scanBest_argAux f vis (List.range n) none
  simpa [List.argmin] using h

lemma nnGo_eq_specGo (points : List Coord) (n : ℕ) :
    ∀ (cnt : ℕ) (vis : ℕ → Bool) (acc : List ℕ),
      (∀ j, vis j = true ↔ j ∈ acc) →
      nnGo points n cnt vis acc = specGo points n cnt acc := by
  intro cnt
  induction cnt with
  | zero => intro vis acc hvis; rfl
  | succ cnt ih =>
    intro vis acc hvis
    have hfilter : (List.range n).filter (fun j => !(vis j))
        = (List.range n).filter (fun j => decide (j ∉ acc)) := by
      apply List.filter_congr
      intro j _
      cases hb : vis j with
      | true => simp [(hvis j).mp hb]
      | false =>
        have hj : j ∉ acc := fun hmem => by
          rw [(hvis j).mpr hmem] at hb
          simp at hb
        simp [hj]
    have hscan := scanBest_eq_argmin
      (fun j => stopDist points (acc.getD (acc.length - 1) 0) j) vis n
    rw [hfilter] at hscan
    cases harg : ((List.range n).filter (fun j => decide (j ∉ acc))).argmin
        (fun j => stopDist points (acc.getD (acc.length - 1) 0) j) with
    | none =>
      rw [harg] at hscan
      have e1 : nnGo points n (cnt + 1) vis acc = nnGo points n cnt vis acc := by
        simp only [nnGo, hscan]
        rfl
      have e2 : specGo points n (cnt + 1) acc = specGo points n cnt acc := by
        simp only [specGo, harg]
      rw [e1, e2]
      exact ih vis acc hvis
    | some b =>
      rw [harg] at hscan
      have e1 : nnGo points n (cnt + 1) vis acc
          = nnGo points n cnt (fun j => if j = b then true else vis j) (acc ++ [b]) := by
        simp only [nnGo, hscan]
        rfl
      have e2 : specGo points n (cnt + 1) acc = specGo points n cnt (acc ++ [b]) := by
        simp only [specGo, harg]
      rw [e1, e2]
      apply ih
      intro j
      by_cases hj : j = b
      · subst hj
        simp
      · rw [if_neg hj, hvis j]
        simp [hj]

/-- Whitespace skipping for the `\s*` parts of the coordinate regex. -/
def skipWs (l : List Char) : List Char := l.dropWhile (fun c => c.isWhitespace)

/-- Numeric value of a nonempty digit run, for the idealized `parseFloat`. -/
def digitsToNat (ds : List Char) : ℕ := ds.foldl (fun a c => 10 * a + (c.toNat - 48)) 0

/-- One number of the coordinate regex, `-?\d+(?:\.\d+)?`, returning its
exact rational value (the idealization of `parseFloat`) and the remaining
input.  The digit runs are maximal, as regex repetition is greedy. -/
def parseNum (l : List Char) : Option (ℚ × List Char) :=
  let neg := l.head? == some '-'
  let l1 := if neg then l.tail else l
  let ds := l1.takeWhile Char.isDigit
  let r1 := l1.dropWhile Char.isDigit
  if ds.isEmpty then none
  else
    let ip : ℚ := (digitsToNat ds : ℚ)
    let signedVal : ℚ → ℚ := fun v => if neg then -v else v
    if r1.head? == some '.' then
      let fs := r1.tail.takeWhile Char.isDigit
      if fs.isEmpty then none
      else some (signedVal (ip + (digitsToNat fs : ℚ) / (10 : ℚ) ^ fs.length),
        r1.tail.dropWhile Char.isDigit)
    else some (signedVal ip, r1)

/-- The anchored coordinate regex of `geocodeAddress`:
`^\s*(-?\d+(?:\.\d+)?)\s*,\s*(-?\d+(?:\.\d+)?)\s*$`.  Returns the two
captured numbers when the whole input matches. -/
def parseCoordPair (s : String) : Option (ℚ × ℚ) :=
  match parseNum (skipWs s.data) with
  | none => none
  | some (la, r1) =>
    if (skipWs r1).head? == some ',' then
      match parseNum (skipWs (skipWs r1).tail) with
      | none => none
      | some (ln, r3) => if (skipWs r3).isEmpty then some (la, ln) else none
    else none

/-- The `geocodeAddress` function of the source.  The coordinate fast path
is modelled exactly; the network path (Google geocoding fetch, including
the API key, HTTP failures and empty result sets, all of which yield
`null`) is abstracted as the oracle `geo`. -/
noncomputable def geocodeAddress (geo : String → Option Coord) (address : String) :
    Option Coord :=
  match parseCoordPair address with
  | some (la, ln) => some ⟨(la : ℝ), (ln : ℝ)⟩
  | none => geo address

/-- Characters that `encodeURIComponent` leaves unescaped. -/
def isUnreserved (c : Char) : Bool :=
  c.isAlpha || c.isDigit || c == '-' || c == '_' || c == '.' || c == '!' || c == '~' ||
    c == '*' || c == Char.ofNat 39 || c == '(' || c == ')'

/-- UTF-8 bytes of a character, for percent-encoding. -/
def utf8Bytes (c : Char) : List ℕ :=
  let u := c.toNat
  if u < 128 then [u]
  else if u < 2048 then [192 + u / 64, 128 + u % 64]
  else if u < 65536 then [224 + u / 4096, 128 + u / 64 % 64, 128 + u % 64]
  else [240 + u / 262144, 128 + u / 4096 % 64, 128 + u / 64 % 64, 128 + u % 64]

def hexDigitChar (m : ℕ) : Char :=
  if m < 10 then Char.ofNat (48 + m) else Char.ofNat (55 + m)

def percentEncodeByte (b : ℕ) : String :=
  String.mk ['%', hexDigitChar (b / 16), hexDigitChar (b % 16)]

/-- Model of JavaScript `encodeURIComponent`: unreserved characters pass
through, all others are percent-encoded byte by byte. -/
def encodeURIComponent (s : String) : String :=
  String.join (s.data.map (fun c =>
    if isUnreserved c then String.mk [c]
    else String.join ((utf8Bytes c).map percentEncodeByte)))

/-- The `buildGoogleMapsUrl` function of the source. -/
def buildGoogleMapsUrl (addresses : List String) : String :=
  "https://www.google.com/maps/dir/" ++ String.intercalate "/" (addresses.map encodeURIComponent)

/-- Outcome of one request to the route handler: an error response with an
HTTP status and message, or a success payload with the ordered addresses
and the maps URL. -/
inductive HandlerResult where
  | err : ℕ → String → HandlerResult
  | ok : List String → String → HandlerResult

/-- The start-prepending step of the handler: JavaScript
`startingAddress && addresses[0] !== startingAddress` treats the empty
string as falsy, hence the explicit non-emptiness conjunct. -/
def inputAddrs (addrs : List String) (startingAddress : Option String) : List String :=
  match startingAddress with
  | some st => if st ≠ "" ∧ addrs.head? ≠ some st then st :: addrs else addrs
  | none => addrs

/-- The `valid` list of the handler: each input address paired with its
geocoded coordinate, entries whose geocoding returned `null` dropped. -/
noncomputable def validStops (geo : String → Option Coord) (input : List String) :
    List (String × Coord) :=
  (input.zip (input.map (fun a => geocodeAddress geo a))).filterMap
    (fun p => p.2.map (fun c => (p.1, c)))

/-- The request handler of `optimize-route` after JSON parsing, with the
geocoding network abstracted by `geo`; `addresses = none` models a missing
or non-array field.  Environment plumbing (CORS preflight, the API-key
lookup, JSON serialization) is outside the model. -/
noncomputable def handle (geo : String → Option Coord) (addresses : Option (List String))
    (startingAddress : Option String) : HandlerResult :=
  match addresses with
  | none => .err 400 "At least 2 addresses are required"
  | some addrs =>
    if addrs.length < 2 then .err 400 "At least 2 addresses are required"
    else
      let input := inputAddrs addrs startingAddress
      let valid := validStops geo input
      if valid.length < 2 then .err 400 "Unable to geocode enough addresses to build a route"
      else
        let points := valid.map Prod.snd
        let order := twoOpt points (nearestNeighborOrder points)
        let orderedAddresses := order.map (fun idx => (valid.getD idx ("", ⟨0, 0⟩)).1)
        .ok orderedAddresses (buildGoogleMapsUrl orderedAddresses)

lemma zip_map_filterMap (fm : String → Option Coord) :
    ∀ l : List String,
      (l.zip (l.map fm)).filterMap (fun p => p.2.map (fun c => (p.1, c)))
        = l.filterMap (fun a => (fm a).map (fun c => (a, c))) := by
  intro l
  induction l with
  | nil => rfl
  | cons a t ih =>
    simp only [List.map_cons, List.zip_cons_cons, List.filterMap_cons]
    cases hfa : fm a with
    | none => simp [hfa, ih]
    | some c => simp [hfa, ih]

lemma validStops_eq_filterMap (geo : String → Option Coord) (input : List String) :
    validStops geo input
      = input.filterMap (fun a => (geocodeAddress geo a).map (fun c => (a, c))) :=
  zip_map_filterMap _ input

lemma filterMap_length_countP (fm : String → Option Coord) :
    ∀ l : List String,
      (l.filterMap (fun a => (fm a).map (fun c => (a, c)))).length
        = l.countP (fun a => (fm a).isSome) := by
  intro l
  induction l with
  | nil => rfl
  | cons a t ih =>
    cases hfa : fm a with
    | none => simp [List.filterMap_cons, hfa, List.countP_cons, ih]
    | some c => simp [List.filterMap_cons, hfa, List.countP_cons, ih]

/-- The number of kept stops equals the number of addresses whose geocoding
succeeded. -/
lemma validStops_length (geo : String → Option Coord) (input : List String) :
    (validStops geo input).length
      = input.countP (fun a => (geocodeAddress geo a).isSome) := by
  rw [validStops_eq_filterMap]
  exact filterMap_length_countP _ input

lemma map_getD_range {α : Type} (dflt : α) :
    ∀ l : List α, (List.range l.length).map (fun i => l.getD i dflt) = l := by
  intro l
  induction l with
  | nil => rfl
  | cons a t ih =>
    rw [List.length_cons, List.range_succ_eq_map, List.map_cons, List.map_map]
    have e : ((fun i => (a :: t).getD i dflt) ∘ Nat.succ) = fun i => t.getD i dflt := by
      funext i
      simp [List.getD_cons_succ]
    rw [e, ih]
    simp

/-- C5: `nearestNeighborOrder` computes exactly the reference greedy tour of
the spec: start at index `0`; repeatedly append the unvisited index of
minimum distance to the last-visited index, ties broken by the lower
original index (first minimum in a left-to-right scan). -/
theorem claim_C5_greedy_reference (points : List Coord) :
    nearestNeighborOrder points = specNearestNeighborOrder points :=
  nnGo_eq_specGo points points.length (points.length - 1) (fun j => j == 0) [0]
    (by intro j; simp)

/-- C6: if fewer than 2 of the geocoded input addresses (the supplied
addresses, with the starting address prepended when given) geocode
successfully, the handler answers with an HTTP 400 error response and no
route payload; the optimizer is never invoked. -/
theorem claim_C6_insufficient_stops (geo : String → Option Coord) (addrs : List String)
    (start : Option String)
    (h : (inputAddrs addrs start).countP (fun a => (geocodeAddress geo a).isSome) < 2) :
    ∃ msg, handle geo (some addrs) start = HandlerResult.err 400 msg := by
  by_cases hlen : addrs.length < 2
  · refine ⟨"At least 2 addresses are required", ?_⟩
    simp only [handle, if_pos hlen]
  · refine ⟨"Unable to geocode enough addresses to build a route", ?_⟩
    have hv : (validStops geo (inputAddrs addrs start)).length < 2 := by
      rw [validStops_length]
      exact h
    simp only [handle, if_neg hlen, if_pos hv]

theorem claim_C6_witness :
    ((inputAddrs ["a", "b"] none).countP
        (fun a => (geocodeAddress (fun _ => none) a).isSome) < 2) ∧
      ∃ msg, handle (fun _ => none) (some ["a", "b"]) none = HandlerResult.err 400 msg :=
  ⟨by decide, claim_C6_insufficient_stops (fun _ => none) ["a", "b"] none (by decide)⟩

/-- C10: an address of the form `number,number` (optional sign and decimal
part, surrounding whitespace allowed) is resolved by the coordinate fast
path of `geocodeAddress`: the two parsed numbers are returned directly as
`(lat, lng)` for every geocoding oracle, so the external service is never
consulted and such an address never counts as a geocoding failure. -/
theorem claim_C10_coord_fast_path (geo : String → Option Coord) (addr : String)
    (la ln : ℚ) (h : parseCoordPair addr = some (la, ln)) :
    geocodeAddress geo addr = some ⟨(la : ℝ), (ln : ℝ)⟩ := by
  simp only [geocodeAddress, h]

/-- A geocoding oracle that fails on the address `X` and resolves every
other address to the origin. -/
noncomputable def geoCex : String → Option Coord :=
  fun a => if a = "X" then none else some ⟨0, 0⟩

/-- C7 (counterexample to the claim as stated): a successful call with an
explicit starting address whose geocoding fails returns a route that does
not start with the supplied starting address - the failed start is silently
dropped from `valid` and the first surviving address becomes the anchor. -/
theorem claim_C7_counterexample :
    handle geoCex (some ["A", "B"]) (some "X")
        = HandlerResult.ok ["A", "B"] (buildGoogleMapsUrl ["A", "B"]) ∧
      (["A", "B"] : List String).head? ≠ some "X" := by
  constructor
  · rfl
  · simp

/-- C7 (amended): on every successful call with an explicit non-empty
starting address that itself geocodes successfully, the returned route is a
permutation of the successfully geocoded input addresses, its first element
is the supplied starting address, and the maps URL is built from exactly
that route order. -/
theorem claim_C7_route_start (geo : String → Option Coord) (addrs : List String)
    (start : String) (route : List String) (url : String)
    (hne : start ≠ "")
    (hgeo : (geocodeAddress geo start).isSome = true)
    (hok : handle geo (some addrs) (some start) = HandlerResult.ok route url) :
    route.head? = some start ∧
    route.Perm ((validStops geo (inputAddrs addrs (some start))).map Prod.fst) ∧
    url = buildGoogleMapsUrl route := by
  by_cases hlen : addrs.length < 2
  · simp only [handle, if_pos hlen] at hok
    simp at hok
  · by_cases hv : (validStops geo (inputAddrs addrs (some start))).length < 2
    · simp only [handle, if_neg hlen, if_pos hv] at hok
      simp at hok
    · simp only [handle, if_neg hlen, if_neg hv] at hok
      injection hok with h1 h2
      subst h1
      subst h2
      have hvlen : 2 ≤ (validStops geo (inputAddrs addrs (some start))).length := not_lt.mp hv
      have hin : (inputAddrs addrs (some start)).head? = some start := by
        simp only [inputAddrs]
        by_cases hh : addrs.head? = some start
        · rw [if_neg (by intro hcon; exact hcon.2 hh)]
          exact hh
        · rw [if_pos ⟨hne, hh⟩]
          rfl
      obtain ⟨c, hc⟩ := Option.isSome_iff_exists.mp hgeo
      obtain ⟨rest, hrest⟩ : ∃ rest, inputAddrs addrs (some start) = start :: rest := by
        cases hcase : inputAddrs addrs (some start) with
        | nil => rw [hcase] at hin; exact absurd hin (by simp)
        | cons a l =>
          rw [hcase] at hin
          simp only [List.head?_cons, Option.some.injEq] at hin
          exact ⟨l, by rw [hin]⟩
      have hvalid : validStops geo (inputAddrs addrs (some start))
          = (start, c) ::
              rest.filterMap (fun a => (geocodeAddress geo a).map (fun c => (a, c))) := by
        rw [validStops_eq_filterMap, hrest, List.filterMap_cons]
        simp [hc]
      have hplen : ((validStops geo (inputAddrs addrs (some start))).map Prod.snd).length
          = (validStops geo (inputAddrs addrs (some start))).length := List.length_map _ _
      have hpne : (validStops geo (inputAddrs addrs (some start))).map Prod.snd ≠ [] := by
        intro hcon
        have hlen0 := congrArg List.length hcon
        rw [hplen] at hlen0
        simp only [List.length_nil] at hlen0
        omega
      refine ⟨?_, ?_, rfl⟩
      · rw [List.head?_map, twoOpt_head, nearestNeighborOrder_head]
        rw [hvalid]
        rfl
      · have hperm := (optimizer_perm _ hpne).map
          (fun idx => ((validStops geo (inputAddrs addrs (some start))).getD idx
            ("", (⟨0, 0⟩ : Coord))).1)
        refine hperm.trans ?_
        rw [hplen]
        have e2 := map_getD_range ("", (⟨0, 0⟩ : Coord))
          (validStops geo (inputAddrs addrs (some start)))
        have e3 : (List.range (validStops geo (inputAddrs addrs (some start))).length).map
            (fun idx => ((validStops geo (inputAddrs addrs (some start))).getD idx
              ("", (⟨0, 0⟩ : Coord))).1)
            = (validStops geo (inputAddrs addrs (some start))).map Prod.fst := by
          conv_rhs => rw [← e2]
          rw [List.map_map]
          rfl
        rw [e3]

/-- A geocoding oracle that resolves every address to the origin. -/
noncomputable def geoW : String → Option Coord := fun _ => some ⟨0, 0⟩

theorem claim_C7_witness :
    (("A" : String) ≠ "") ∧ ((geocodeAddress geoW "A").isSome = true) ∧
      (handle geoW (some ["A", "B"]) (some "A")
        = HandlerResult.ok ["A", "B"] (buildGoogleMapsUrl ["A", "B"])) ∧
      ((["A", "B"] : List String).head? = some "A" ∧
        (["A", "B"] : List String).Perm
          ((validStops geoW (inputAddrs ["A", "B"] (some "A"))).map Prod.fst) ∧
        buildGoogleMapsUrl ["A", "B"] = buildGoogleMapsUrl ["A", "B"]) :=
  have h1 : ("A" : String) ≠ "" := by simp
  have h2 : (geocodeAddress geoW "A").isSome = true := rfl
  have h3 : handle geoW (some ["A", "B"]) (some "A")
      = HandlerResult.ok ["A", "B"] (buildGoogleMapsUrl ["A", "B"]) := rfl
  ⟨h1, h2, h3, claim_C7_route_start geoW ["A", "B"] "A" ["A", "B"]
    (buildGoogleMapsUrl ["A", "B"]) h1 h2 h3⟩

lemma parse_example : parseCoordPair " 1.5, -2 " = some (3 / 2, -2) := by
  simp +decide [parseCoordPair, parseNum, skipWs, digitsToNat]
  norm_num

theorem claim_C10_witness :
    parseCoordPair " 1.5, -2 " = some (3 / 2, -2) ∧
      geocodeAddress (fun _ => none) " 1.5, -2 "
        = some ⟨((3 / 2 : ℚ) : ℝ), ((-2 : ℚ) : ℝ)⟩ :=
  ⟨parse_example,
    claim_C10_coord_fast_path (fun _ => none) " 1.5, -2 " (3 / 2) (-2) parse_example⟩

end RouteOpt
